import Mathlib

/-!
Verification of the LRU cache engine in `src/cache.hpp` (template class
`Cache`), shallowly embedded in Lean 4.

The C++ class stores:
  * `cache : std::map<key, (value, age)>`   — the forward index,
  * `ages  : std::map<age, key>`            — the reverse index,
  * `last_age : unsigned long`              — the age counter,
  * `capacity : size_t`, `hits`, `misses : unsigned long`.

Keys and values are template parameters; keys only need a strict total
order, so we instantiate both with `Nat`.  `std::map` is embedded as an
association list sorted in strictly ascending key order; `insert` with a
hint keeps the std::map semantics (insert only if the key is absent, at
the correct ordered position), `find` is keyed lookup, `erase` removes
the (unique) binding of a key, and `begin()` of a nonempty map is the
head of the sorted list.  `unsigned long` arithmetic is `Nat` arithmetic
modulo `2 ^ 64` (LP64 model), made explicit exactly where the source can
overflow, i.e. at `last_age + 1`.
-/

namespace LRUCache

/-- Width of the C++ `unsigned long` type (LP64): the age counter
(`age_type`) as well as the `hits` and `misses` statistics counters
(`cache.hpp`, line 72) are of this type, so the age arithmetic in
`Cache::get` and `Cache::insert` and the counter increments `hits += 1`
and `misses += 1` are all modulo this constant. -/
def ageModulus : Nat := 2 ^ 64

/-- Embedding of `std::map::find`: the value bound to key `k`, if any. -/
def mapFind (k : Nat) : List (Nat × α) → Option α
  | [] => none
  | (k', v) :: t => if k = k' then some v else mapFind k t

/-- Embedding of `std::map::insert` (with or without a position hint):
insert `(k, v)` at its ordered position if `k` is absent; if `k` is
already bound the map is unchanged (std::map insert never overwrites). -/
def mapInsert (k : Nat) (v : α) : List (Nat × α) → List (Nat × α)
  | [] => [(k, v)]
  | (k', v') :: t =>
    if k < k' then (k, v) :: (k', v') :: t
    else if k = k' then (k', v') :: t
    else (k', v') :: mapInsert k v t

/-- Embedding of `std::map::erase` by key: remove the binding of `k`
(std::map keys are unique, so removing the first binding is exact). -/
def mapErase (k : Nat) : List (Nat × α) → List (Nat × α)
  | [] => []
  | (k', v') :: t => if k = k' then t else (k', v') :: mapErase k t

/-- Embedding of writing through a `std::map` iterator positioned at key
`k` (`it->second = f it->second`): replace the value bound to `k`,
leaving the map unchanged when `k` is not bound (in the C++ source this
latter case only arises on the overflow path of `Cache::get`, where the
iterator dangles after `cache.clear ()` and the write cannot re-create a
map node). -/
def mapAdjust (k : Nat) (f : α → α) : List (Nat × α) → List (Nat × α)
  | [] => []
  | (k', v') :: t => if k = k' then (k', f v') :: t else (k', v') :: mapAdjust k f t

/-- The state of the C++ `Cache` object (`src/cache.hpp`, lines 40-73):
forward index `cache` (key to (value, age)), reverse index `ages` (age
to key), `last_age`, `capacity` and the `hits`/`misses` counters. -/
structure Cache where
  cache : List (Nat × Nat × Nat)
  ages : List (Nat × Nat)
  last_age : Nat
  capacity : Nat
  hits : Nat
  misses : Nat
deriving Repr, DecidableEq

/-- The constructor `Cache (size_t cap = 3)`: empty indices, age counter
and statistics at zero. -/
def initCache (cap : Nat := 3) : Cache :=
  { cache := [], ages := [], last_age := 0, capacity := cap,
    hits := 0, misses := 0 }

/-- The loop of `Cache::trim_to_capacity` (lines 200-209): while the
forward index is larger than the capacity, erase the key stored at
`ages.begin ()` (the minimal age) from the forward index and pop that
reverse-index entry.  When the reverse index runs out first the C++
loop would dereference `ages.end ()` (undefined behavior / no
progress); the embedding stops there, which is unreachable whenever the
two indices are in bijection. -/
def trimLoop (capacity : Nat) (cache : List (Nat × Nat × Nat)) :
    List (Nat × Nat) → List (Nat × Nat × Nat) × List (Nat × Nat)
  | [] => (cache, [])
  | (a, k) :: rest =>
    if capacity < cache.length then
      trimLoop capacity (mapErase k cache) rest
    else (cache, (a, k) :: rest)

/-- `Cache::trim_to_capacity` (lines 200-209). -/
def trim_to_capacity (s : Cache) : Cache :=
  { s with cache := (trimLoop s.capacity s.cache s.ages).1,
           ages := (trimLoop s.capacity s.cache s.ages).2 }

/-- `Cache::get` (lines 84-114).  Returns the C++ return value, the
value written through the out-parameter (`none` when the out-parameter
is not written), and the post-state.  On a hit the age counter is
advanced (with the overflow check `new_last_age < last_age` purging both
indices), the old reverse-index entry of the key is erased, a fresh one
is inserted, and the entry's age in the forward index is rewritten via
the iterator; `hits` increments (as `unsigned long`, i.e. modulo
`2 ^ 64`).  On a miss only `misses` increments (likewise modulo
`2 ^ 64`).
On the overflow path the C++ iterator `it` dangles after
`cache.clear ()`: the reads through it (`it->second.second`) are
embedded as the values they had before the purge, and the write
`it->second.second = new_last_age` acts on the cleared forward index,
where it cannot re-create the node (see `mapAdjust`). -/
def Cache.get (s : Cache) (key : Nat) : Bool × Option Nat × Cache :=
  match mapFind key s.cache with
  | some va =>
    let new_last_age := (s.last_age + 1) % ageModulus
    let overflow := new_last_age < s.last_age
    let cache0 := if overflow then [] else s.cache
    let ages0 := if overflow then [] else s.ages
    (true, some va.1,
      { s with
        cache := mapAdjust key (fun p => (p.1, new_last_age)) cache0,
        ages := mapInsert new_last_age key (mapErase va.2 ages0),
        last_age := new_last_age,
        hits := (s.hits + 1) % ageModulus })
  | none => (false, none, { s with misses := (s.misses + 1) % ageModulus })

/-- `Cache::insert` (lines 124-153).  The age counter is advanced first
(with the overflow purge), then the key is looked up in the (possibly
purged) forward index: an absent key is inserted into both indices with
the fresh age, a present key has its old reverse-index entry replaced
and its value and age overwritten.  Finally `trim_to_capacity` runs. -/
def Cache.insert (s : Cache) (key value : Nat) : Cache :=
  let new_last_age := (s.last_age + 1) % ageModulus
  let overflow := new_last_age < s.last_age
  let cache0 := if overflow then [] else s.cache
  let ages0 := if overflow then [] else s.ages
  trim_to_capacity <|
    match mapFind key cache0 with
    | none =>
      { s with
        cache := mapInsert key (value, new_last_age) cache0,
        ages := mapInsert new_last_age key ages0,
        last_age := new_last_age }
    | some va =>
      { s with
        cache := mapAdjust key (fun _ => (value, new_last_age)) cache0,
        ages := mapInsert new_last_age key (mapErase va.2 ages0),
        last_age := new_last_age }

/-- `Cache::clear` (lines 161-166): empty both indices and reset the
age counter; capacity and statistics are untouched. -/
def Cache.clear (s : Cache) : Cache :=
  { s with cache := [], ages := [], last_age := 0 }

/-- `Cache::set_capacity` (lines 176-180). -/
def Cache.set_capacity (s : Cache) (new_cap : Nat) : Cache :=
  trim_to_capacity { s with capacity := new_cap }

/-- `Cache::get_capacity` (lines 188-191). -/
def Cache.get_capacity (s : Cache) : Nat := s.capacity

/-- `Cache::get_stats` (lines 217-220): hits first, misses second. -/
def Cache.get_stats (s : Cache) : Nat × Nat := (s.hits, s.misses)

/-- One public operation of the cache interface. -/
inductive Op where
  | get (key : Nat)
  | insert (key value : Nat)
  | clear
  | set_capacity (n : Nat)
  | get_capacity
  | get_stats
deriving Repr, DecidableEq

/-- The state transition of one public operation (the two accessors are
`const` and leave the state unchanged). -/
def step (s : Cache) (op : Op) : Cache :=
  match op with
  | .get key => (Cache.get s key).2.2
  | .insert key value => Cache.insert s key value
  | .clear => Cache.clear s
  | .set_capacity n => Cache.set_capacity s n
  | .get_capacity => s
  | .get_stats => s

/-- Run a sequence of public operations from a state. -/
def run (s : Cache) (ops : List Op) : Cache :=
  ops.foldl step s

/-- A state is reachable when some operation sequence, run from a
freshly constructed cache of some capacity, produces it. -/
def Reachable (s : Cache) : Prop :=
  ∃ cap ops, run (initCache cap) ops = s

/-- The spec's bijection invariant between the forward index and the
reverse index: each forward entry `(k, v, a)` has the reverse entry
`(a, k)`, and each reverse entry `(a, k)` is backed by a forward entry
of key `k` and age `a`. -/
def IndicesBijective (s : Cache) : Prop :=
  (∀ k v a, (k, v, a) ∈ s.cache → (a, k) ∈ s.ages) ∧
  (∀ a k, (a, k) ∈ s.ages → ∃ v, (k, v, a) ∈ s.cache)

/-- Operation list inserting the given (key, value) pairs in order. -/
def insertOps (pairs : List (Nat × Nat)) : List Op :=
  pairs.map fun p => Op.insert p.1 p.2

/-- Forward-index bindings created by inserting `pairs` in order into a
large-enough cache whose age counter starts at `a0`: the i-th pair is
bound with age `a0 + i + 1`. -/
def tagged (a0 : Nat) : List (Nat × Nat) → List (Nat × Nat × Nat)
  | [] => []
  | p :: t => (p.1, p.2, a0 + 1) :: tagged (a0 + 1) t

/-- Reverse-index entries created by inserting `pairs` in order into a
large-enough cache whose age counter starts at `a0`. -/
def agesOf (a0 : Nat) : List (Nat × Nat) → List (Nat × Nat)
  | [] => []
  | p :: t => (a0 + 1, p.1) :: agesOf (a0 + 1) t

/-- Operation sequence that drives the age counter to its maximum value
(by repeatedly inserting key 0) and then performs a lookup hit on key 0,
which advances the counter past the wrap-around check. -/
def overflowProbe : List Op :=
  List.replicate (ageModulus - 1) (Op.insert 0 0) ++ [Op.get 0]

/-- One operation block producing exactly one lookup hit and returning
the cache to the empty state with a zero age counter: insert key 0,
look it up (a hit), then clear.  `clear` keeps the statistics counters,
so repeating this block drives the hit counter arbitrarily high while
the age counter never wraps. -/
def hitBlock : List Op :=
  [Op.insert 0 0, Op.get 0, Op.clear]

/-- A cache state holding one entry whose next age-counter advance
wraps: `last_age` is at the maximum representable value. -/
def preOverflowState : Cache :=
  { cache := [(0, 7, ageModulus - 1)], ages := [(ageModulus - 1, 0)],
    last_age := ageModulus - 1, capacity := 1, hits := 0, misses := 0 }

example : Cache.insert (initCache 2) 5 50 =
    { cache := [(5, 50, 1)], ages := [(1, 5)], last_age := 1,
      capacity := 2, hits := 0, misses := 0 } := by decide

example : run (initCache 2) [Op.insert 5 50, Op.insert 3 30, Op.insert 7 70] =
    { cache := [(3, 30, 2), (7, 70, 3)], ages := [(2, 3), (3, 7)],
      last_age := 3, capacity := 2, hits := 0, misses := 0 } := by decide

example :
    Cache.get (run (initCache 2) [Op.insert 5 50, Op.insert 3 30]) 5 =
      (true, some 50,
        { cache := [(3, 30, 2), (5, 50, 3)], ages := [(2, 3), (3, 5)],
          last_age := 3, capacity := 2, hits := 1, misses := 0 }) := by decide

/-! ### Association-list lemmas for the embedded `std::map` operations -/

theorem mapFind_eq_none {α : Type} {k : Nat} {l : List (Nat × α)} :
    mapFind k l = none ↔ k ∉ l.map Prod.fst := by
  induction l with
  | nil => simp [mapFind]
  | cons e t ih =>
    obtain ⟨k', v⟩ := e
    by_cases h : k = k' <;> simp [mapFind, h, ih]

theorem mem_of_mapFind_eq_some {α : Type} {k : Nat} {v : α} {l : List (Nat × α)}
    (h : mapFind k l = some v) : (k, v) ∈ l := by
  induction l with
  | nil => simp [mapFind] at h
  | cons e t ih =>
    obtain ⟨k', v'⟩ := e
    by_cases hk : k = k'
    · subst hk
      simp [mapFind] at h
      simp [h]
    · rw [mapFind, if_neg hk] at h
      exact List.mem_cons_of_mem _ (ih h)

theorem mapFind_eq_some_of_mem {α : Type} {k : Nat} {v : α} {l : List (Nat × α)}
    (hnd : (l.map Prod.fst).Nodup) (h : (k, v) ∈ l) : mapFind k l = some v := by
  induction l with
  | nil => simp at h
  | cons e t ih =>
    obtain ⟨k', v'⟩ := e
    simp only [List.map_cons, List.nodup_cons] at hnd
    rcases List.mem_cons.1 h with h1 | h1
    · obtain ⟨rfl, rfl⟩ := Prod.mk.injEq .. ▸ h1
      · simp [mapFind]
    · have hne : k ≠ k' := by
        rintro rfl
        exact hnd.1 (List.mem_map.2 ⟨(k, v), h1, rfl⟩)
      rw [mapFind, if_neg hne]
      exact ih hnd.2 h1

theorem perm_mapInsert {α : Type} {k : Nat} {l : List (Nat × α)} (v : α)
    (h : mapFind k l = none) : (mapInsert k v l).Perm ((k, v) :: l) := by
  induction l with
  | nil => simp [mapInsert]
  | cons e t ih =>
    obtain ⟨k', v'⟩ := e
    rw [mapFind] at h
    by_cases hk : k = k'
    · simp [hk] at h
    · rw [if_neg hk] at h
      rw [mapInsert]
      by_cases hlt : k < k'
      · rw [if_pos hlt]
      · rw [if_neg hlt, if_neg hk]
        exact ((ih h).cons (k', v')).trans (List.Perm.swap _ _ _)

theorem mapInsert_append_of_lt {α : Type} {k : Nat} {l : List (Nat × α)} (v : α)
    (h : ∀ k' ∈ l.map Prod.fst, k' < k) : mapInsert k v l = l ++ [(k, v)] := by
  induction l with
  | nil => simp [mapInsert]
  | cons e t ih =>
    obtain ⟨k', v'⟩ := e
    have hk' : k' < k := h k' (by simp)
    rw [mapInsert, if_neg (by omega), if_neg (by omega), List.cons_append,
      ih (fun x hx => h x (by simp [hx]))]

theorem mapFind_mapInsert_self {α : Type} {k : Nat} {v : α} {l : List (Nat × α)}
    (h : mapFind k l = none) : mapFind k (mapInsert k v l) = some v := by
  induction l with
  | nil => simp [mapInsert, mapFind]
  | cons q t ih =>
    obtain ⟨k', v'⟩ := q
    rw [mapFind] at h
    by_cases hk : k = k'
    · rw [if_pos hk] at h
      exact absurd h (by simp)
    · rw [if_neg hk] at h
      rw [mapInsert]
      by_cases hlt : k < k'
      · rw [if_pos hlt, mapFind, if_pos rfl]
      · rw [if_neg hlt, if_neg hk, mapFind, if_neg hk]
        exact ih h

theorem mapFind_mapInsert_ne {α : Type} {k' k : Nat} (v : α) (l : List (Nat × α))
    (h : k' ≠ k) : mapFind k' (mapInsert k v l) = mapFind k' l := by
  induction l with
  | nil => simp [mapInsert, mapFind, h]
  | cons q t ih =>
    obtain ⟨k'', v''⟩ := q
    rw [mapInsert]
    by_cases hlt : k < k''
    · rw [if_pos hlt, mapFind, if_neg h]
    · rw [if_neg hlt]
      by_cases hk : k = k''
      · rw [if_pos hk]
      · rw [if_neg hk, mapFind, mapFind]
        by_cases hq : k' = k''
        · rw [if_pos hq, if_pos hq]
        · rw [if_neg hq, if_neg hq, ih]

theorem mapErase_sublist {α : Type} (k : Nat) (l : List (Nat × α)) :
    (mapErase k l).Sublist l := by
  induction l with
  | nil => simp [mapErase]
  | cons e t ih =>
    obtain ⟨k', v'⟩ := e
    rw [mapErase]
    by_cases hk : k = k'
    · rw [if_pos hk]
      exact (List.sublist_cons_self _ _)
    · rw [if_neg hk]
      exact ih.cons₂ _

theorem mem_mapErase {α : Type} {k : Nat} {l : List (Nat × α)}
    (hnd : (l.map Prod.fst).Nodup) (e : Nat × α) :
    e ∈ mapErase k l ↔ e ∈ l ∧ e.1 ≠ k := by
  induction l with
  | nil => simp [mapErase]
  | cons q t ih =>
    obtain ⟨k', v'⟩ := q
    simp only [List.map_cons, List.nodup_cons] at hnd
    rw [mapErase]
    by_cases hk : k = k'
    · subst hk
      rw [if_pos rfl]
      constructor
      · intro hm
        refine ⟨List.mem_cons_of_mem _ hm, ?_⟩
        rintro rfl
        exact hnd.1 (List.mem_map.2 ⟨e, hm, rfl⟩)
      · rintro ⟨hm, hne⟩
        rcases List.mem_cons.1 hm with h1 | h1
        · exact absurd (congrArg Prod.fst h1) hne
        · exact h1
    · rw [if_neg hk]
      constructor
      · intro hm
        rcases List.mem_cons.1 hm with h1 | h1
        · subst h1
          exact ⟨List.mem_cons_self _ _, fun hfst => hk hfst.symm⟩
        · have := (ih hnd.2).1 h1
          exact ⟨List.mem_cons_of_mem _ this.1, this.2⟩
      · rintro ⟨hm, hne⟩
        rcases List.mem_cons.1 hm with h1 | h1
        · subst h1
          exact List.mem_cons_self _ _
        · exact List.mem_cons_of_mem _ ((ih hnd.2).2 ⟨h1, hne⟩)

theorem mapFind_mapErase_ne {α : Type} {k' k : Nat} {l : List (Nat × α)}
    (h : k' ≠ k) : mapFind k' (mapErase k l) = mapFind k' l := by
  induction l with
  | nil => simp [mapErase]
  | cons q t ih =>
    obtain ⟨k'', v⟩ := q
    rw [mapErase]
    by_cases hk : k = k''
    · subst hk
      rw [if_pos rfl, mapFind, if_neg h]
    · rw [if_neg hk, mapFind, mapFind]
      by_cases hq : k' = k''
      · rw [if_pos hq, if_pos hq]
      · rw [if_neg hq, if_neg hq, ih]

theorem mapFind_mapErase_self {α : Type} {k : Nat} {l : List (Nat × α)}
    (hnd : (l.map Prod.fst).Nodup) : mapFind k (mapErase k l) = none := by
  rw [mapFind_eq_none]
  intro hmem
  obtain ⟨e, he, hfst⟩ := List.mem_map.1 hmem
  exact ((mem_mapErase hnd e).1 he).2 hfst

theorem length_mapErase_of_find {α : Type} {k : Nat} {v : α} {l : List (Nat × α)}
    (h : mapFind k l = some v) : l.length = (mapErase k l).length + 1 := by
  induction l with
  | nil => simp [mapFind] at h
  | cons q t ih =>
    obtain ⟨k', v'⟩ := q
    rw [mapFind] at h
    rw [mapErase]
    by_cases hk : k = k'
    · rw [if_pos hk]
      simp
    · rw [if_neg hk] at h
      rw [if_neg hk, List.length_cons, List.length_cons, ih h]

theorem length_mapAdjust {α : Type} (k : Nat) (f : α → α) (l : List (Nat × α)) :
    (mapAdjust k f l).length = l.length := by
  induction l with
  | nil => rfl
  | cons q t ih =>
    obtain ⟨k', v'⟩ := q
    rw [mapAdjust]
    by_cases hk : k = k'
    · rw [if_pos hk, List.length_cons, List.length_cons]
    · rw [if_neg hk, List.length_cons, List.length_cons, ih]

theorem keys_mapAdjust {α : Type} (k : Nat) (f : α → α) (l : List (Nat × α)) :
    (mapAdjust k f l).map Prod.fst = l.map Prod.fst := by
  induction l with
  | nil => rfl
  | cons q t ih =>
    obtain ⟨k', v'⟩ := q
    rw [mapAdjust]
    by_cases hk : k = k'
    · rw [if_pos hk, List.map_cons, List.map_cons]
    · rw [if_neg hk, List.map_cons, List.map_cons, ih]

theorem mapFind_mapAdjust_self {α : Type} {k : Nat} {v : α} {l : List (Nat × α)}
    (f : α → α) (h : mapFind k l = some v) :
    mapFind k (mapAdjust k f l) = some (f v) := by
  induction l with
  | nil => simp [mapFind] at h
  | cons q t ih =>
    obtain ⟨k', v'⟩ := q
    rw [mapFind] at h
    rw [mapAdjust]
    by_cases hk : k = k'
    · rw [if_pos hk] at h
      rw [if_pos hk, mapFind, if_pos hk, Option.some_inj.1 h]
    · rw [if_neg hk] at h
      rw [if_neg hk, mapFind, if_neg hk]
      exact ih h

theorem mapFind_mapAdjust_ne {α : Type} {k' k : Nat} {l : List (Nat × α)}
    (f : α → α) (h : k' ≠ k) : mapFind k' (mapAdjust k f l) = mapFind k' l := by
  induction l with
  | nil => rfl
  | cons q t ih =>
    obtain ⟨k'', v⟩ := q
    rw [mapAdjust]
    by_cases hk : k = k''
    · subst hk
      rw [if_pos rfl, mapFind, mapFind, if_neg h, if_neg h]
    · rw [if_neg hk, mapFind, mapFind]
      by_cases hq : k' = k''
      · rw [if_pos hq, if_pos hq]
      · rw [if_neg hq, if_neg hq, ih]

theorem trimLoop_of_length_le {cap : Nat} {cache : List (Nat × Nat × Nat)}
    (ages : List (Nat × Nat)) (h : cache.length ≤ cap) :
    trimLoop cap cache ages = (cache, ages) := by
  cases ages with
  | nil => rfl
  | cons q rest =>
    obtain ⟨a, k⟩ := q
    rw [trimLoop, if_neg (Nat.not_lt.2 h)]

theorem run_append (s : Cache) (l l' : List Op) :
    run s (l ++ l') = run (run s l) l' :=
  List.foldl_append step s l l'

theorem run_concat (s : Cache) (l : List Op) (op : Op) :
    run s (l ++ [op]) = step (run s l) op := by
  rw [run_append]
  rfl

/-! ### Driving the age counter to its maximum -/

theorem insert_same_key_run (c : Nat) (hc : 1 ≤ c) :
    ∀ n, 1 ≤ n → n < ageModulus →
    run (initCache c) (List.replicate n (Op.insert 0 0)) =
      { cache := [(0, 0, n)], ages := [(n, 0)], last_age := n,
        capacity := c, hits := 0, misses := 0 } := by
  intro n h1
  induction n, h1 using Nat.le_induction with
  | base =>
    intro hW
    have hmod : (0 + 1) % ageModulus = 1 := Nat.mod_eq_of_lt hW
    have hcap : ¬ (c < 1) := Nat.not_lt.2 hc
    have hc0 : ¬ (c = 0) := by omega
    simp [run, step, Cache.insert, initCache, hmod, mapFind, mapInsert,
      trim_to_capacity, trimLoop, hcap, hc0]
  | succ n hn ih =>
    intro hW
    have hmod : (n + 1) % ageModulus = n + 1 := Nat.mod_eq_of_lt hW
    have hno : ¬ (n + 1 < n) := by omega
    have hcap : ¬ (c < 1) := Nat.not_lt.2 hc
    rw [List.replicate_succ', run_concat, ih (by omega)]
    simp [step, Cache.insert, hmod, hno, mapFind, mapErase, mapAdjust,
      mapInsert, trim_to_capacity, trimLoop, hcap]

theorem run_overflowProbe (c : Nat) (hc : 1 ≤ c) :
    run (initCache c) overflowProbe =
      { cache := [], ages := [(0, 0)], last_age := 0, capacity := c,
        hits := 1, misses := 0 } := by
  rw [overflowProbe, run_concat,
    insert_same_key_run c hc (ageModulus - 1) (by norm_num [ageModulus])
      (by norm_num [ageModulus])]
  have h1 : (ageModulus - 1 + 1) % ageModulus = 0 := by norm_num [ageModulus]
  have h2 : 0 < ageModulus - 1 := by norm_num [ageModulus]
  have h3 : (0 + 1) % ageModulus = 1 := by norm_num [ageModulus]
  simp [step, Cache.get, mapFind, h1, h2, h3, mapErase, mapInsert, mapAdjust]

/-! ### C1: the bijection invariant breaks on the overflow path of `get`

In `Cache::get` the iterator `it` obtained from `cache.find (key)` is
dereferenced after `cache.clear ()` on the overflow path — after the
purge the reverse index receives an entry for the hit key, but the
forward index, already cleared, never gets the key back.  The resulting
reachable state has an orphaned reverse-index entry. -/

/-- C1: there is a reachable state, produced by the return of a public
operation (a lookup hit that wraps the age counter), whose indices are
not in bijection: the reverse index holds `(0, 0)` while the forward
index is empty. -/
theorem bijection_violated_on_overflow :
    Reachable (run (initCache 1) overflowProbe) ∧
    (run (initCache 1) overflowProbe).cache = [] ∧
    (run (initCache 1) overflowProbe).ages = [(0, 0)] ∧
    ¬ IndicesBijective (run (initCache 1) overflowProbe) := by
  rw [run_overflowProbe 1 le_rfl]
  refine ⟨⟨1, overflowProbe, run_overflowProbe 1 le_rfl⟩, rfl, rfl, ?_⟩
  rintro ⟨-, h2⟩
  obtain ⟨v, hv⟩ := h2 0 0 (by simp)
  simp at hv

/-! ### C2: the overflow purge in `get` does not leave a clean state -/

/-- C2: from a state whose next age advance wraps (detected by the
incremented value comparing less than the previous one), a lookup hit
purges both indices but then — through the iterator invalidated by the
purge — records the hit key in the reverse index only: the operation
returns `true` yet afterwards the key is absent from the forward index
and the reverse index holds an entry for it, so the state is neither
fully purged nor a correctly ordered cache.  (`Cache::insert` from the
same state, by contrast, purges and proceeds cleanly.) -/
theorem get_overflow_not_clean :
    (preOverflowState.last_age + 1) % ageModulus < preOverflowState.last_age ∧
    (Cache.get preOverflowState 0).1 = true ∧
    (Cache.get preOverflowState 0).2.2.cache = [] ∧
    (Cache.get preOverflowState 0).2.2.ages = [(0, 0)] ∧
    Cache.insert preOverflowState 5 5 =
      { cache := [(5, 5, 0)], ages := [(0, 5)], last_age := 0,
        capacity := 1, hits := 0, misses := 0 } := by
  refine ⟨by norm_num [preOverflowState, ageModulus], ?_⟩
  have h1 : (ageModulus - 1 + 1) % ageModulus = 0 := by norm_num [ageModulus]
  have h2 : 0 < ageModulus - 1 := by norm_num [ageModulus]
  refine ⟨?_, ?_, ?_, ?_⟩ <;>
    simp [Cache.get, Cache.insert, preOverflowState, mapFind, h1, h2,
      mapErase, mapInsert, mapAdjust, trim_to_capacity, trimLoop]

/-! ### C3: the two indices can end up with different sizes -/

/-- C3: an operation sequence after whose final `insert` the forward
and reverse indices have different sizes (1 versus 2) — the orphaned
reverse-index entry created by the overflow lookup survives the
subsequent insert.  The capacity bound itself holds here (1 entry,
capacity 1); it is the size-equality half of the claim that fails. -/
theorem index_sizes_diverge :
    (run (initCache 1) (overflowProbe ++ [Op.insert 1 1])).cache.length = 1 ∧
    (run (initCache 1) (overflowProbe ++ [Op.insert 1 1])).ages.length = 2 ∧
    (run (initCache 1) (overflowProbe ++ [Op.insert 1 1])).capacity = 1 := by
  rw [run_concat, run_overflowProbe 1 le_rfl]
  have h1 : (0 + 1) % ageModulus = 1 := by norm_num [ageModulus]
  simp [step, Cache.insert, h1, mapFind, mapInsert, trim_to_capacity,
    trimLoop]

/-! ### C8: `set_capacity` can evict the most recently used entry -/

/-- C8: a reachable state with two live entries — key 0 with age 2 (the
most recently used) and key 1 with age 1 — on which `set_capacity 1`
evicts key 0, the entry with the highest age, and keeps key 1, because
the trim loop pops the orphaned reverse-index entry `(0, 0)` first and
erases live key 0 through it. -/
theorem set_capacity_evicts_newest :
    (run (initCache 2) (overflowProbe ++ [Op.insert 1 10, Op.insert 0 20])).cache
      = [(0, 20, 2), (1, 10, 1)] ∧
    (Cache.set_capacity
        (run (initCache 2) (overflowProbe ++ [Op.insert 1 10, Op.insert 0 20]))
        1).cache
      = [(1, 10, 1)] := by
  have hsplit : overflowProbe ++ [Op.insert 1 10, Op.insert 0 20] =
      (overflowProbe ++ [Op.insert 1 10]) ++ [Op.insert 0 20] := by simp
  have hpre : run (initCache 2) (overflowProbe ++ [Op.insert 1 10, Op.insert 0 20]) =
      { cache := [(0, 20, 2), (1, 10, 1)], ages := [(0, 0), (1, 1), (2, 0)],
        last_age := 2, capacity := 2, hits := 1, misses := 0 } := by
    rw [hsplit, run_concat, run_concat, run_overflowProbe 2 (by norm_num)]
    have ha : (0 + 1) % ageModulus = 1 := by norm_num [ageModulus]
    have hb : (1 + 1) % ageModulus = 2 := by norm_num [ageModulus]
    simp [step, Cache.insert, ha, hb, mapFind, mapInsert, trim_to_capacity,
      trimLoop]
  rw [hpre]
  constructor
  · rfl
  · rfl

/-! ### C4: miss behavior of `Cache::get`

`misses` is an `unsigned long` (`cache.hpp`, line 72), so `misses += 1`
wraps modulo `2 ^ 64`.  The miss counter reaches `2 ^ 64 - 1` on a
reachable state (after `2 ^ 64 - 1` missed lookups — the same trace
length standard as the age-counter results above), and there the next
miss sets it to 0, not to `misses + 1`. -/

theorem miss_run (c : Nat) :
    ∀ n, n < ageModulus →
    run (initCache c) (List.replicate n (Op.get 0)) =
      { cache := [], ages := [], last_age := 0, capacity := c,
        hits := 0, misses := n } := by
  intro n
  induction n with
  | zero =>
    intro _
    simp [run, initCache]
  | succ n ih =>
    intro hW
    have hmod : (n + 1) % ageModulus = n + 1 := Nat.mod_eq_of_lt hW
    rw [List.replicate_succ', run_concat, ih (by omega)]
    simp [step, Cache.get, mapFind, hmod]

/-- C4 as frozen is refuted at the reachable state with
`misses = 2 ^ 64 - 1`: a further miss wraps the `unsigned long` counter
to 0, which is not `misses + 1`. -/
theorem get_miss_wrap :
    Reachable (run (initCache 3) (List.replicate (ageModulus - 1) (Op.get 0))) ∧
    mapFind 0 (run (initCache 3)
      (List.replicate (ageModulus - 1) (Op.get 0))).cache = none ∧
    (run (initCache 3) (List.replicate (ageModulus - 1) (Op.get 0))).misses
      = ageModulus - 1 ∧
    (Cache.get (run (initCache 3)
      (List.replicate (ageModulus - 1) (Op.get 0))) 0).2.2.misses = 0 ∧
    ¬ ((Cache.get (run (initCache 3)
        (List.replicate (ageModulus - 1) (Op.get 0))) 0).2.2.misses
      = (run (initCache 3)
        (List.replicate (ageModulus - 1) (Op.get 0))).misses + 1) := by
  have hrun := miss_run 3 (ageModulus - 1) (by norm_num [ageModulus])
  rw [hrun]
  have h0 : (ageModulus - 1 + 1) % ageModulus = 0 := by norm_num [ageModulus]
  refine ⟨⟨3, _, hrun⟩, rfl, rfl, ?_, ?_⟩
  · simp [Cache.get, mapFind, h0]
  · simp [Cache.get, mapFind, h0]

/-- C4 (amended for the `unsigned long` width of the counter): for
every state and every key absent from the forward index, `Cache::get`
returns `false`, advances the miss counter by exactly one modulo
`2 ^ 64` (from `2 ^ 64 - 1` it wraps to 0), and leaves the forward
index, the reverse index, the age counter and the hit counter
unchanged. -/
theorem get_miss_behavior (s : Cache) (key : Nat)
    (h : mapFind key s.cache = none) :
    (Cache.get s key).1 = false ∧
    (Cache.get s key).2.2.misses = (s.misses + 1) % ageModulus ∧
    (Cache.get s key).2.2.cache = s.cache ∧
    (Cache.get s key).2.2.ages = s.ages ∧
    (Cache.get s key).2.2.last_age = s.last_age ∧
    (Cache.get s key).2.2.hits = s.hits ∧
    (Cache.get s key).2.2.capacity = s.capacity := by
  simp [Cache.get, h]

/-- Witness for C4 at a concrete input: key 0 is absent from a freshly
constructed cache. -/
theorem get_miss_behavior_witness :
    mapFind 0 (initCache 3).cache = none ∧
    (Cache.get (initCache 3) 0).1 = false ∧
    (Cache.get (initCache 3) 0).2.2.misses
      = ((initCache 3).misses + 1) % ageModulus :=
  ⟨rfl, (get_miss_behavior (initCache 3) 0 rfl).1,
    (get_miss_behavior (initCache 3) 0 rfl).2.1⟩

/-! ### C5: semantics of `Cache::clear` -/

/-- C5: after `Cache::clear` both indices are empty (live-entry count
is zero), the age counter is zero, and the capacity and the hit/miss
statistics are unchanged. -/
theorem clear_semantics (s : Cache) :
    (Cache.clear s).cache = [] ∧
    (Cache.clear s).ages = [] ∧
    (Cache.clear s).cache.length = 0 ∧
    (Cache.clear s).last_age = 0 ∧
    Cache.get_capacity (Cache.clear s) = Cache.get_capacity s ∧
    Cache.get_stats (Cache.clear s) = Cache.get_stats s := by
  simp [Cache.clear, Cache.get_capacity, Cache.get_stats]

/-! ### C9: the statistics counters move only under `get` and wrap at
their width

`hits` and `misses` are `unsigned long` (`cache.hpp`, line 72): the
increments in `Cache::get` wrap modulo `2 ^ 64`.  Repeating the block
insert / hit / clear drives the hit counter to `2 ^ 64 - 1` on a
reachable state (the age counter is reset by each `clear`, so it never
wraps), and the next hit then drops `hits` from `2 ^ 64 - 1` to 0 — a
decrease. -/

theorem hit_block_run :
    ∀ n, n < ageModulus →
    run (initCache 1) (List.flatten (List.replicate n hitBlock)) =
      { cache := [], ages := [], last_age := 0, capacity := 1,
        hits := n, misses := 0 } := by
  intro n
  induction n with
  | zero =>
    intro _
    simp [run, initCache]
  | succ n ih =>
    intro hW
    have hsplit : List.flatten (List.replicate (n + 1) hitBlock) =
        List.flatten (List.replicate n hitBlock) ++ hitBlock := by
      rw [List.replicate_succ', List.flatten_append]
      simp
    rw [hsplit, run_append, ih (by omega)]
    have hm1 : (0 + 1) % ageModulus = 1 := by norm_num [ageModulus]
    have hm2 : (1 + 1) % ageModulus = 2 := by norm_num [ageModulus]
    have hmn : (n + 1) % ageModulus = n + 1 := Nat.mod_eq_of_lt hW
    simp [hitBlock, run, step, Cache.insert, Cache.get, Cache.clear,
      mapFind, mapInsert, mapErase, mapAdjust, trim_to_capacity, trimLoop,
      hm1, hm2, hmn]

/-- C9 as frozen is refuted at the reachable state with
`hits = 2 ^ 64 - 1` and one live entry: the next lookup hit wraps the
`unsigned long` hit counter from `2 ^ 64 - 1` to 0, a decrease. -/
theorem hit_counter_wraps :
    Reachable (run (initCache 1)
      (List.flatten (List.replicate (ageModulus - 1) hitBlock) ++ [Op.insert 0 0])) ∧
    (run (initCache 1)
      (List.flatten (List.replicate (ageModulus - 1) hitBlock) ++ [Op.insert 0 0])).hits
      = ageModulus - 1 ∧
    (step (run (initCache 1)
        (List.flatten (List.replicate (ageModulus - 1) hitBlock) ++ [Op.insert 0 0]))
      (Op.get 0)).hits = 0 ∧
    ¬ ((run (initCache 1)
        (List.flatten (List.replicate (ageModulus - 1) hitBlock) ++ [Op.insert 0 0])).hits
      ≤ (step (run (initCache 1)
          (List.flatten (List.replicate (ageModulus - 1) hitBlock) ++ [Op.insert 0 0]))
        (Op.get 0)).hits) := by
  have hpre : run (initCache 1)
      (List.flatten (List.replicate (ageModulus - 1) hitBlock) ++ [Op.insert 0 0]) =
      { cache := [(0, 0, 1)], ages := [(1, 0)], last_age := 1, capacity := 1,
        hits := ageModulus - 1, misses := 0 } := by
    rw [run_concat, hit_block_run (ageModulus - 1) (by norm_num [ageModulus])]
    have hm1 : (0 + 1) % ageModulus = 1 := by norm_num [ageModulus]
    simp [step, Cache.insert, mapFind, mapInsert, trim_to_capacity, trimLoop,
      hm1]
  rw [hpre]
  have h0 : (ageModulus - 1 + 1) % ageModulus = 0 := by norm_num [ageModulus]
  refine ⟨⟨1, _, hpre⟩, rfl, ?_, ?_⟩
  · simp [step, Cache.get, mapFind, h0]
  · simp [step, Cache.get, mapFind, h0]
    norm_num [ageModulus]

/-- C9 (amended for the `unsigned long` width of the counters): across
any single public operation, any operation other than a lookup leaves
both counters exactly unchanged, and the counters never decrease as
long as they are below the maximum representable value `2 ^ 64 - 1`
(at that maximum, the next matching lookup wraps the counter to 0). -/
theorem stats_monotone (s : Cache) (op : Op) :
    (s.hits < ageModulus - 1 → s.hits ≤ (step s op).hits) ∧
    (s.misses < ageModulus - 1 → s.misses ≤ (step s op).misses) ∧
    ((∀ k, op ≠ Op.get k) →
      (step s op).hits = s.hits ∧ (step s op).misses = s.misses) := by
  have hWpos : ageModulus - 1 < ageModulus := by norm_num [ageModulus]
  cases op with
  | get key =>
    refine ⟨?_, ?_, fun h => absurd rfl (h key)⟩
    · intro hh
      have hmod : (s.hits + 1) % ageModulus = s.hits + 1 :=
        Nat.mod_eq_of_lt (by omega)
      cases h : mapFind key s.cache <;>
        simp [step, Cache.get, h, hmod, Nat.le_succ]
    · intro hm
      have hmod : (s.misses + 1) % ageModulus = s.misses + 1 :=
        Nat.mod_eq_of_lt (by omega)
      cases h : mapFind key s.cache <;>
        simp [step, Cache.get, h, hmod, Nat.le_succ]
  | insert key value =>
    have : (step s (Op.insert key value)).hits = s.hits ∧
        (step s (Op.insert key value)).misses = s.misses := by
      cases h : mapFind key (if (s.last_age + 1) % ageModulus < s.last_age
          then [] else s.cache) <;>
        simp [step, Cache.insert, trim_to_capacity, h]
    exact ⟨fun _ => this.1.ge, fun _ => this.2.ge, fun _ => this⟩
  | clear => simp [step, Cache.clear]
  | set_capacity n => simp [step, Cache.set_capacity, trim_to_capacity]
  | get_capacity => simp [step]
  | get_stats => simp [step]

/-- Witness for C9 at a concrete input: the fresh counters are below
the wrap bound, and `clear` is not a lookup and preserves both
counters exactly. -/
theorem stats_monotone_witness :
    (initCache 3).hits ≤ (step (initCache 3) Op.clear).hits ∧
    (initCache 3).misses ≤ (step (initCache 3) Op.clear).misses ∧
    (step (initCache 3) Op.clear).hits = (initCache 3).hits ∧
    (step (initCache 3) Op.clear).misses = (initCache 3).misses :=
  ⟨(stats_monotone (initCache 3) Op.clear).1 (by decide),
    (stats_monotone (initCache 3) Op.clear).2.1 (by decide),
    ((stats_monotone (initCache 3) Op.clear).2.2 (fun _ h => nomatch h)).1,
    ((stats_monotone (initCache 3) Op.clear).2.2 (fun _ h => nomatch h)).2⟩

/-! ### C10: the out-parameter of `Cache::get` is written only on a hit -/

/-- C10: on a miss `Cache::get` never writes through the out-parameter
(modelled as the `Option` component of the result being `none`), and on
a hit it writes exactly a copy of the stored value. -/
theorem get_out_value (s : Cache) (key : Nat) :
    (mapFind key s.cache = none → (Cache.get s key).2.1 = none) ∧
    (∀ v a, mapFind key s.cache = some (v, a) →
      (Cache.get s key).2.1 = some v) := by
  constructor
  · intro h
    simp [Cache.get, h]
  · intro v a h
    simp [Cache.get, h]

/-- Witness for C10 at a concrete input: a miss on an empty cache leaves
the out-parameter untouched. -/
theorem get_out_value_witness :
    mapFind 5 (initCache 3).cache = none ∧
    (Cache.get (initCache 3) 5).2.1 = none :=
  ⟨rfl, (get_out_value (initCache 3) 5).1 rfl⟩

/-! ### C7: a lookup hit refreshes recency -/

/-- C7: with capacity 2 and distinct keys `A`, `B`, `C`, after
`insert A`, `insert B`, a successful `get A` (it returns `true`), and
`insert C`, the cache holds `A` (refreshed to age 3) and `C` (age 4) and
no longer holds `B` — the lookup made `A` most recently used, so `B` was
the eviction victim. -/
theorem recency_refresh (A B C vA vB vC : Nat)
    (hAB : A ≠ B) (hAC : A ≠ C) (hBC : B ≠ C) :
    (Cache.get (run (initCache 2) [Op.insert A vA, Op.insert B vB]) A).1 = true ∧
    mapFind A (run (initCache 2)
      [Op.insert A vA, Op.insert B vB, Op.get A, Op.insert C vC]).cache
      = some (vA, 3) ∧
    mapFind C (run (initCache 2)
      [Op.insert A vA, Op.insert B vB, Op.get A, Op.insert C vC]).cache
      = some (vC, 4) ∧
    mapFind B (run (initCache 2)
      [Op.insert A vA, Op.insert B vB, Op.get A, Op.insert C vC]).cache
      = none := by
  have hBA : B ≠ A := Ne.symm hAB
  have hCA : C ≠ A := Ne.symm hAC
  have hCB : C ≠ B := Ne.symm hBC
  have hm1 : (0 + 1) % ageModulus = 1 := by norm_num [ageModulus]
  have hm2 : (1 + 1) % ageModulus = 2 := by norm_num [ageModulus]
  have hm3 : (2 + 1) % ageModulus = 3 := by norm_num [ageModulus]
  have hm4 : (3 + 1) % ageModulus = 4 := by norm_num [ageModulus]
  have h1 : run (initCache 2) [Op.insert A vA] =
      { cache := [(A, vA, 1)], ages := [(1, A)], last_age := 1,
        capacity := 2, hits := 0, misses := 0 } := by
    simp [run, step, Cache.insert, initCache, hm1, mapFind, mapInsert,
      trim_to_capacity, trimLoop]
  have hfB1 : mapFind B [(A, vA, 1)] = none := by simp [mapFind, hBA]
  have h2 : run (initCache 2) [Op.insert A vA, Op.insert B vB] =
      { cache := mapInsert B (vB, 2) [(A, vA, 1)],
        ages := [(1, A), (2, B)], last_age := 2, capacity := 2,
        hits := 0, misses := 0 } := by
    have hsplit : [Op.insert A vA, Op.insert B vB] =
        [Op.insert A vA] ++ [Op.insert B vB] := rfl
    rw [hsplit, run_concat, h1]
    have hlen2 : (mapInsert B (vB, 2) [(A, vA, 1)]).length = 2 :=
      (perm_mapInsert _ hfB1).length_eq
    have htrim := trimLoop_of_length_le [(1, A), (2, B)] (le_of_eq hlen2)
    have hIns2 : mapInsert 2 B [(1, A)] = [(1, A), (2, B)] := by
      simp [mapInsert]
    simp [step, Cache.insert, hm2, hfB1, hIns2, trim_to_capacity, htrim]
  have hfA2 : mapFind A (mapInsert B (vB, 2) [(A, vA, 1)]) = some (vA, 1) := by
    rw [mapFind_mapInsert_ne _ _ hAB]
    simp [mapFind]
  have h3 : run (initCache 2) [Op.insert A vA, Op.insert B vB, Op.get A] =
      { cache := mapAdjust A (fun p => (p.1, 3)) (mapInsert B (vB, 2) [(A, vA, 1)]),
        ages := [(2, B), (3, A)], last_age := 3, capacity := 2,
        hits := 1, misses := 0 } := by
    have hsplit : [Op.insert A vA, Op.insert B vB, Op.get A] =
        [Op.insert A vA, Op.insert B vB] ++ [Op.get A] := rfl
    rw [hsplit, run_concat, h2]
    have hEr : mapErase 1 [(1, A), (2, B)] = [(2, B)] := by simp [mapErase]
    have hIns3 : mapInsert 3 A [(2, B)] = [(2, B), (3, A)] := by
      simp [mapInsert]
    simp [step, Cache.get, hfA2, hm1, hm3, hEr, hIns3]
  have hfC3 : mapFind C
      (mapAdjust A (fun p => (p.1, 3)) (mapInsert B (vB, 2) [(A, vA, 1)])) = none := by
    rw [mapFind_mapAdjust_ne _ hCA, mapFind_mapInsert_ne _ _ hCB]
    simp [mapFind, hCA]
  have hfA3 : mapFind A
      (mapAdjust A (fun p => (p.1, 3)) (mapInsert B (vB, 2) [(A, vA, 1)])) = some (vA, 3) := by
    simpa using mapFind_mapAdjust_self (fun p => (p.1, 3)) hfA2
  have hfB3 : mapFind B
      (mapAdjust A (fun p => (p.1, 3)) (mapInsert B (vB, 2) [(A, vA, 1)])) = some (vB, 2) := by
    rw [mapFind_mapAdjust_ne _ hBA, mapFind_mapInsert_self hfB1]
  have hfB4 : mapFind B (mapInsert C (vC, 4)
      (mapAdjust A (fun p => (p.1, 3)) (mapInsert B (vB, 2) [(A, vA, 1)]))) = some (vB, 2) := by
    rw [mapFind_mapInsert_ne _ _ hBC]
    exact hfB3
  have hfA4 : mapFind A (mapInsert C (vC, 4)
      (mapAdjust A (fun p => (p.1, 3)) (mapInsert B (vB, 2) [(A, vA, 1)]))) = some (vA, 3) := by
    rw [mapFind_mapInsert_ne _ _ hAC]
    exact hfA3
  have hfC4 : mapFind C (mapInsert C (vC, 4)
      (mapAdjust A (fun p => (p.1, 3)) (mapInsert B (vB, 2) [(A, vA, 1)]))) = some (vC, 4) :=
    mapFind_mapInsert_self hfC3
  have hlen3 : (mapAdjust A (fun p => (p.1, 3))
      (mapInsert B (vB, 2) [(A, vA, 1)])).length = 2 := by
    rw [length_mapAdjust]
    exact (perm_mapInsert _ hfB1).length_eq
  have hlen4 : (mapInsert C (vC, 4)
      (mapAdjust A (fun p => (p.1, 3)) (mapInsert B (vB, 2) [(A, vA, 1)]))).length = 3 := by
    rw [(perm_mapInsert _ hfC3).length_eq, List.length_cons, hlen3]
  have hlenE : (mapErase B (mapInsert C (vC, 4)
      (mapAdjust A (fun p => (p.1, 3)) (mapInsert B (vB, 2) [(A, vA, 1)])))).length = 2 := by
    have h := length_mapErase_of_find hfB4
    omega
  have htrim4 : trimLoop 2 (mapInsert C (vC, 4)
      (mapAdjust A (fun p => (p.1, 3)) (mapInsert B (vB, 2) [(A, vA, 1)])))
      [(2, B), (3, A), (4, C)] =
      (mapErase B (mapInsert C (vC, 4)
        (mapAdjust A (fun p => (p.1, 3)) (mapInsert B (vB, 2) [(A, vA, 1)]))),
       [(3, A), (4, C)]) := by
    simp [trimLoop, hlen4, hlenE]
  have h4 : run (initCache 2) [Op.insert A vA, Op.insert B vB, Op.get A, Op.insert C vC] =
      { cache := mapErase B (mapInsert C (vC, 4)
          (mapAdjust A (fun p => (p.1, 3)) (mapInsert B (vB, 2) [(A, vA, 1)]))),
        ages := [(3, A), (4, C)], last_age := 4, capacity := 2,
        hits := 1, misses := 0 } := by
    have hsplit : [Op.insert A vA, Op.insert B vB, Op.get A, Op.insert C vC] =
        [Op.insert A vA, Op.insert B vB, Op.get A] ++ [Op.insert C vC] := rfl
    rw [hsplit, run_concat, h3]
    have hIns4 : mapInsert 4 C [(2, B), (3, A)] = [(2, B), (3, A), (4, C)] := by
      simp [mapInsert]
    simp [step, Cache.insert, hm4, hfC3, hIns4, trim_to_capacity, htrim4]
  have hknd4 : ((mapInsert C (vC, 4)
      (mapAdjust A (fun p => (p.1, 3)) (mapInsert B (vB, 2) [(A, vA, 1)]))).map
        Prod.fst).Nodup := by
    have hp2 : ((mapInsert B (vB, 2) [(A, vA, 1)]).map Prod.fst).Perm [B, A] := by
      simpa using (perm_mapInsert _ hfB1).map Prod.fst
    have hp4 : ((mapInsert C (vC, 4)
        (mapAdjust A (fun p => (p.1, 3)) (mapInsert B (vB, 2) [(A, vA, 1)]))).map
          Prod.fst).Perm (C :: [B, A]) := by
      have h0 := (perm_mapInsert (vC, 4) hfC3).map Prod.fst
      rw [List.map_cons, keys_mapAdjust] at h0
      exact h0.trans (hp2.cons C)
    exact hp4.nodup_iff.2 (by simp [hCB, hCA, hBA])
  refine ⟨?_, ?_, ?_, ?_⟩
  · rw [h2]
    simp [Cache.get, hfA2]
  · rw [h4, mapFind_mapErase_ne hAB]
    exact hfA4
  · rw [h4, mapFind_mapErase_ne hCB]
    exact hfC4
  · rw [h4]
    exact mapFind_mapErase_self hknd4

/-- Witness for C7 at concrete distinct keys 0, 1, 2. -/
theorem recency_refresh_witness :
    (Cache.get (run (initCache 2) [Op.insert 0 10, Op.insert 1 20]) 0).1 = true ∧
    mapFind 0 (run (initCache 2)
      [Op.insert 0 10, Op.insert 1 20, Op.get 0, Op.insert 2 30]).cache
      = some (10, 3) ∧
    mapFind 2 (run (initCache 2)
      [Op.insert 0 10, Op.insert 1 20, Op.get 0, Op.insert 2 30]).cache
      = some (30, 4) ∧
    mapFind 1 (run (initCache 2)
      [Op.insert 0 10, Op.insert 1 20, Op.get 0, Op.insert 2 30]).cache
      = none :=
  recency_refresh 0 1 2 10 20 30 (by decide) (by decide) (by decide)

/-! ### Inserting a run of fresh keys -/

theorem tagged_append (a0 : Nat) (l₁ l₂ : List (Nat × Nat)) :
    tagged a0 (l₁ ++ l₂) = tagged a0 l₁ ++ tagged (a0 + l₁.length) l₂ := by
  induction l₁ generalizing a0 with
  | nil => simp [tagged]
  | cons p t ih =>
    have harith : a0 + 1 + t.length = a0 + (t.length + 1) := by omega
    show (p.1, p.2, a0 + 1) :: tagged (a0 + 1) (t ++ l₂) =
      (p.1, p.2, a0 + 1) :: (tagged (a0 + 1) t ++ tagged (a0 + (t.length + 1)) l₂)
    rw [ih (a0 + 1), harith]

theorem keys_tagged (a0 : Nat) (l : List (Nat × Nat)) :
    (tagged a0 l).map Prod.fst = l.map Prod.fst := by
  induction l generalizing a0 with
  | nil => rfl
  | cons p t ih => simp [tagged, ih]

theorem agesOf_append (a0 : Nat) (l₁ l₂ : List (Nat × Nat)) :
    agesOf a0 (l₁ ++ l₂) = agesOf a0 l₁ ++ agesOf (a0 + l₁.length) l₂ := by
  induction l₁ generalizing a0 with
  | nil => simp [agesOf]
  | cons p t ih =>
    have harith : a0 + 1 + t.length = a0 + (t.length + 1) := by omega
    show (a0 + 1, p.1) :: agesOf (a0 + 1) (t ++ l₂) =
      (a0 + 1, p.1) :: (agesOf (a0 + 1) t ++ agesOf (a0 + (t.length + 1)) l₂)
    rw [ih (a0 + 1), harith]

theorem agesOf_keys_bound {a0 : Nat} {l : List (Nat × Nat)} :
    ∀ a ∈ (agesOf a0 l).map Prod.fst, a0 < a ∧ a ≤ a0 + l.length := by
  induction l generalizing a0 with
  | nil => simp [agesOf]
  | cons p t ih =>
    intro a ha
    rw [agesOf, List.map_cons, List.mem_cons] at ha
    rcases ha with rfl | ha
    · simp only [List.length_cons]
      omega
    · have := ih a ha
      simp only [List.length_cons]
      omega

/-- The state after inserting a list of pairwise-fresh keys into an
empty cache whose capacity can hold them all: the forward index holds
exactly the inserted bindings with ages 1, 2, …, and the reverse index
lists them in insertion (= age) order. -/
theorem run_fresh_inserts (c : Nat) (pairs : List (Nat × Nat))
    (hnd : (pairs.map Prod.fst).Nodup) (hlen : pairs.length ≤ c)
    (hW : pairs.length < ageModulus) :
    ((run (initCache c) (insertOps pairs)).cache.map Prod.fst).Nodup ∧
    (∀ e, e ∈ (run (initCache c) (insertOps pairs)).cache ↔ e ∈ tagged 0 pairs) ∧
    (run (initCache c) (insertOps pairs)).cache.length = pairs.length ∧
    (run (initCache c) (insertOps pairs)).ages = agesOf 0 pairs ∧
    (run (initCache c) (insertOps pairs)).last_age = pairs.length ∧
    (run (initCache c) (insertOps pairs)).capacity = c ∧
    (run (initCache c) (insertOps pairs)).hits = 0 ∧
    (run (initCache c) (insertOps pairs)).misses = 0 := by
  revert hnd hlen hW
  induction pairs using List.reverseRecOn with
  | nil =>
    intro hnd hlen hW
    simp [run, insertOps, initCache, tagged, agesOf]
  | append_singleton l p ih =>
    intro hnd hlen hW
    rw [List.map_append, List.nodup_append] at hnd
    obtain ⟨hndl, -, hdisj⟩ := hnd
    have hfreshl : p.1 ∉ l.map Prod.fst := by
      intro hmem
      exact hdisj hmem (by simp)
    rw [List.length_append, List.length_cons, List.length_nil] at hlen hW
    obtain ⟨hnds, hmem, hlens, hages, hlast, hcap, hh, hm⟩ :=
      ih hndl (by omega) (by omega)
    have hsplit : insertOps (l ++ [p]) = insertOps l ++ [Op.insert p.1 p.2] := by
      simp [insertOps]
    rw [hsplit, run_concat]
    have hfreshS : p.1 ∉ (run (initCache c) (insertOps l)).cache.map Prod.fst := by
      intro hk
      obtain ⟨e, he, hfst⟩ := List.mem_map.1 hk
      exact hfreshl (keys_tagged 0 l ▸ List.mem_map.2 ⟨e, (hmem e).1 he, hfst⟩)
    have hfind : mapFind p.1 (run (initCache c) (insertOps l)).cache = none :=
      mapFind_eq_none.2 hfreshS
    have hmod : (l.length + 1) % ageModulus = l.length + 1 :=
      Nat.mod_eq_of_lt (by omega)
    have hnlt : ¬ (l.length + 1 < l.length) := by omega
    have hlennew : (mapInsert p.1 (p.2, l.length + 1)
        (run (initCache c) (insertOps l)).cache).length = l.length + 1 := by
      rw [(perm_mapInsert _ hfind).length_eq, List.length_cons, hlens]
    have hagesIns : mapInsert (l.length + 1) p.1 (agesOf 0 l)
        = agesOf 0 (l ++ [p]) := by
      rw [mapInsert_append_of_lt _ (fun a ha => by
        have := agesOf_keys_bound a ha
        omega)]
      rw [agesOf_append]
      simp [agesOf]
    have htrim := trimLoop_of_length_le (agesOf 0 (l ++ [p]))
      (le_trans (le_of_eq hlennew) (show l.length + 1 ≤ c by omega))
    have hstep : step (run (initCache c) (insertOps l)) (Op.insert p.1 p.2) =
        { cache := mapInsert p.1 (p.2, l.length + 1)
            (run (initCache c) (insertOps l)).cache,
          ages := agesOf 0 (l ++ [p]), last_age := l.length + 1,
          capacity := c, hits := 0, misses := 0 } := by
      simp [step, Cache.insert, hlast, hmod, hnlt, hfind, hages, hagesIns,
        trim_to_capacity, hcap, htrim, hh, hm]
    rw [hstep]
    refine ⟨?_, ?_, by simp [hlennew], rfl, by simp, rfl, rfl, rfl⟩
    · have hkp := (perm_mapInsert (p.2, l.length + 1) hfind).map Prod.fst
      rw [List.map_cons] at hkp
      exact hkp.nodup_iff.2 (List.nodup_cons.2 ⟨hfreshS, hnds⟩)
    · intro e
      rw [(perm_mapInsert (p.2, l.length + 1) hfind).mem_iff, List.mem_cons,
        tagged_append, List.mem_append, hmem e]
      simp [tagged, or_comm]

theorem mapFind_isSome {α : Type} {k : Nat} {l : List (Nat × α)} :
    (mapFind k l).isSome = true ↔ k ∈ l.map Prod.fst := by
  cases h : mapFind k l with
  | none =>
    simp only [Option.isSome_none, Bool.false_eq_true, false_iff]
    exact mapFind_eq_none.1 h
  | some v =>
    simp only [Option.isSome_some, true_iff]
    exact List.mem_map.2 ⟨(k, v), mem_of_mapFind_eq_some h, rfl⟩

theorem mem_keys_mapErase {α : Type} {k : Nat} {l : List (Nat × α)}
    (hnd : (l.map Prod.fst).Nodup) (k' : Nat) :
    k' ∈ (mapErase k l).map Prod.fst ↔ k' ∈ l.map Prod.fst ∧ k' ≠ k := by
  simp only [List.mem_map]
  constructor
  · rintro ⟨e, he, rfl⟩
    have h := (mem_mapErase hnd e).1 he
    exact ⟨⟨e, h.1, rfl⟩, h.2⟩
  · rintro ⟨⟨e, he, rfl⟩, hne⟩
    exact ⟨e, (mem_mapErase hnd e).2 ⟨he, hne⟩, rfl⟩

/-! ### C6: LRU eviction order over a full run of fresh inserts -/

/-- C6 (amended with the age-counter bound `c + 1 < 2 ^ 64`): starting
from an empty cache of capacity `c ≥ 1`, inserting `c + 1` pairwise
distinct keys one at a time with no intervening lookups leaves exactly
the keys `k₂ … k_{c+1}` live: only the first key is evicted, and the
survivors are exactly the `c` most recently inserted keys.  The bound
excludes the age-counter wrap (for `c + 1 ≥ 2 ^ 64` the insert run
purges the cache mid-way, see the counterexample). -/
theorem lru_eviction_order (c : Nat) (pairs : List (Nat × Nat))
    (hc : 1 ≤ c) (hlen : pairs.length = c + 1)
    (hnd : (pairs.map Prod.fst).Nodup) (hW : c + 1 < ageModulus) :
    ∀ key, (mapFind key (run (initCache c) (insertOps pairs)).cache).isSome = true
      ↔ key ∈ (pairs.map Prod.fst).drop 1 := by
  rcases List.eq_nil_or_concat pairs with rfl | ⟨front, p, hconcat⟩
  · simp at hlen
  subst hconcat
  rw [List.concat_eq_append] at hlen hnd ⊢
  have hlenf : front.length = c := by
    rw [List.length_append, List.length_cons, List.length_nil] at hlen
    omega
  obtain ⟨q, front', rfl⟩ : ∃ q front', front = q :: front' := by
    cases front with
    | nil => simp at hlenf; omega
    | cons q t => exact ⟨q, t, rfl⟩
  have hlenf' : front'.length + 1 = c := by simpa using hlenf
  rw [List.map_append, List.nodup_append] at hnd
  obtain ⟨hndf, -, hdisj⟩ := hnd
  have hfreshp : p.1 ∉ (q :: front').map Prod.fst := by
    intro hmem
    exact hdisj hmem (by simp)
  obtain ⟨hnds, hmem, hlens, hages, hlast, hcap, hh, hm⟩ :=
    run_fresh_inserts c (q :: front') hndf (le_of_eq hlenf) (by omega)
  have hsplit : insertOps ((q :: front') ++ [p]) =
      insertOps (q :: front') ++ [Op.insert p.1 p.2] := by
    simp [insertOps]
  rw [hsplit, run_concat]
  have hfreshS : p.1 ∉ (run (initCache c) (insertOps (q :: front'))).cache.map
      Prod.fst := by
    intro hk
    obtain ⟨e, he, hfst⟩ := List.mem_map.1 hk
    exact hfreshp (keys_tagged 0 (q :: front') ▸
      List.mem_map.2 ⟨e, (hmem e).1 he, hfst⟩)
  have hfind : mapFind p.1 (run (initCache c) (insertOps (q :: front'))).cache
      = none := mapFind_eq_none.2 hfreshS
  have hlastc : (run (initCache c) (insertOps (q :: front'))).last_age = c := by
    rw [hlast, hlenf]
  have hmod : (c + 1) % ageModulus = c + 1 := Nat.mod_eq_of_lt hW
  have hnlt : ¬ (c + 1 < c) := by omega
  have hlen4 : (mapInsert p.1 (p.2, c + 1)
      (run (initCache c) (insertOps (q :: front'))).cache).length = c + 1 := by
    rw [(perm_mapInsert _ hfind).length_eq, List.length_cons, hlens, hlenf]
  have hagesQ : (run (initCache c) (insertOps (q :: front'))).ages
      = (1, q.1) :: agesOf 1 front' := by
    rw [hages]
    show agesOf 0 (q :: front') = _
    simp [agesOf]
  have hagesIns : mapInsert (c + 1) p.1 ((1, q.1) :: agesOf 1 front')
      = ((1, q.1) :: agesOf 1 front') ++ [(c + 1, p.1)] := by
    refine mapInsert_append_of_lt _ ?_
    intro a ha
    rw [List.map_cons, List.mem_cons] at ha
    rcases ha with rfl | ha
    · omega
    · have := agesOf_keys_bound a ha
      omega
  have hpq : p.1 ≠ q.1 := by
    intro h
    exact hfreshp (h ▸ List.mem_cons_self _ _)
  have hfq4 : mapFind q.1 (mapInsert p.1 (p.2, c + 1)
      (run (initCache c) (insertOps (q :: front'))).cache) = some (q.2, 1) := by
    rw [mapFind_mapInsert_ne _ _ (Ne.symm hpq)]
    refine mapFind_eq_some_of_mem hnds ((hmem _).2 ?_)
    show (q.1, q.2, 1) ∈ tagged 0 (q :: front')
    show (q.1, q.2, 1) ∈ (q.1, q.2, 0 + 1) :: tagged (0 + 1) front'
    simp
  have hlenE : (mapErase q.1 (mapInsert p.1 (p.2, c + 1)
      (run (initCache c) (insertOps (q :: front'))).cache)).length = c := by
    have h := length_mapErase_of_find hfq4
    omega
  have hcc : c < c + 1 := by omega
  have htrim : trimLoop c
      (mapInsert p.1 (p.2, c + 1)
        (run (initCache c) (insertOps (q :: front'))).cache)
      ((1, q.1) :: (agesOf 1 front' ++ [(c + 1, p.1)]))
      = (mapErase q.1 (mapInsert p.1 (p.2, c + 1)
          (run (initCache c) (insertOps (q :: front'))).cache),
         agesOf 1 front' ++ [(c + 1, p.1)]) := by
    rw [trimLoop, if_pos (by rw [hlen4]; exact hcc)]
    exact trimLoop_of_length_le _ (le_of_eq hlenE)
  have hstep : step (run (initCache c) (insertOps (q :: front')))
      (Op.insert p.1 p.2) =
      { cache := mapErase q.1 (mapInsert p.1 (p.2, c + 1)
          (run (initCache c) (insertOps (q :: front'))).cache),
        ages := agesOf 1 front' ++ [(c + 1, p.1)],
        last_age := c + 1, capacity := c, hits := 0, misses := 0 } := by
    simp [step, Cache.insert, hlastc, hmod, hnlt, hfind, hagesQ, hagesIns,
      trim_to_capacity, hcap, htrim, hh, hm]
  rw [hstep]
  have hnd4 : ((mapInsert p.1 (p.2, c + 1)
      (run (initCache c) (insertOps (q :: front'))).cache).map Prod.fst).Nodup := by
    have hkp := (perm_mapInsert (p.2, c + 1) hfind).map Prod.fst
    rw [List.map_cons] at hkp
    exact hkp.nodup_iff.2 (List.nodup_cons.2 ⟨hfreshS, hnds⟩)
  have hkeysS : ∀ k', k' ∈ (run (initCache c) (insertOps (q :: front'))).cache.map
      Prod.fst ↔ k' ∈ (q :: front').map Prod.fst := by
    intro k'
    constructor
    · intro hk
      obtain ⟨e, he, rfl⟩ := List.mem_map.1 hk
      exact keys_tagged 0 (q :: front') ▸ List.mem_map.2 ⟨e, (hmem e).1 he, rfl⟩
    · intro hk
      rw [← keys_tagged 0 (q :: front')] at hk
      obtain ⟨e, he, rfl⟩ := List.mem_map.1 hk
      exact List.mem_map.2 ⟨e, (hmem e).2 he, rfl⟩
  have hkeys4 : ∀ k', k' ∈ (mapInsert p.1 (p.2, c + 1)
      (run (initCache c) (insertOps (q :: front'))).cache).map Prod.fst
      ↔ k' = p.1 ∨ k' ∈ (q :: front').map Prod.fst := by
    intro k'
    have hkp := ((perm_mapInsert (p.2, c + 1) hfind).map Prod.fst).mem_iff
      (a := k')
    rw [List.map_cons, List.mem_cons] at hkp
    rw [hkp, hkeysS k']
  have hqf : q.1 ∉ front'.map Prod.fst := (List.nodup_cons.1 (by simpa using hndf)).1
  intro key
  show (mapFind key (mapErase q.1 _)).isSome = true ↔ _
  rw [mapFind_isSome, mem_keys_mapErase hnd4, hkeys4]
  simp only [List.map_append, List.map_cons, List.cons_append, List.map_nil,
    List.drop_succ_cons, List.drop_zero, List.mem_cons, List.mem_append,
    List.mem_singleton]
  constructor
  · rintro ⟨rfl | rfl | hkey, hne⟩
    · exact Or.inr (Or.inl rfl)
    · exact absurd rfl hne
    · exact Or.inl hkey
  · rintro (hkey | rfl | h)
    · refine ⟨Or.inr (Or.inr hkey), ?_⟩
      rintro rfl
      exact hqf hkey
    · exact ⟨Or.inl rfl, hpq⟩
    · exact absurd h (List.not_mem_nil _)

/-- Witness for C6 at a concrete input: capacity 1, two distinct keys;
only the second survives. -/
theorem lru_eviction_order_witness :
    (mapFind 7 (run (initCache 1) (insertOps [(5, 50), (7, 70)])).cache).isSome
      = true ∧
    (mapFind 5 (run (initCache 1) (insertOps [(5, 50), (7, 70)])).cache).isSome
      = false :=
  ⟨(lru_eviction_order 1 [(5, 50), (7, 70)] (by norm_num) (by rfl) (by decide)
      (by norm_num [ageModulus]) 7).2 (by decide),
    by decide⟩

/-! ### C6 fails without the age-counter bound -/

theorem run_ascending_inserts :
    ∀ j, j ≤ ageModulus - 1 →
    run (initCache (ageModulus - 1))
      (insertOps ((List.range' 1 j).map (fun i => (i, 0)))) =
      { cache := (List.range' 1 j).map (fun i => (i, 0, i)),
        ages := (List.range' 1 j).map (fun i => (i, i)),
        last_age := j, capacity := ageModulus - 1, hits := 0, misses := 0 } := by
  intro j
  induction j with
  | zero =>
    intro _
    simp [run, insertOps, initCache]
  | succ n ih =>
    intro hj
    have hstate := ih (by omega)
    have hops : insertOps ((List.range' 1 (n + 1)).map
        (fun i => ((i : Nat), (0 : Nat)))) =
        insertOps ((List.range' 1 n).map (fun i => (i, 0))) ++
          [Op.insert (1 + n) 0] := by
      rw [List.range'_1_concat, List.map_append]
      simp [insertOps]
    rw [hops, run_concat, hstate]
    have hWn : n + 1 < ageModulus := by
      have h := hj
      norm_num [ageModulus] at h ⊢
      omega
    have hmod : (n + 1) % ageModulus = n + 1 := Nat.mod_eq_of_lt hWn
    have hnlt : ¬ (n + 1 < n) := by omega
    have hfind : mapFind (1 + n)
        ((List.range' 1 n).map (fun i => ((i : Nat), (0 : Nat), i))) = none := by
      rw [mapFind_eq_none]
      simp [List.map_map, Function.comp, List.mem_range'_1]
    have hboundc : ∀ a ∈ ((List.range' 1 n).map
        (fun i => ((i : Nat), (0 : Nat), i))).map Prod.fst, a < 1 + n := by
      intro a ha
      simp [List.map_map, Function.comp, List.mem_range'_1] at ha
      omega
    have hbounda : ∀ a ∈ ((List.range' 1 n).map
        (fun i => ((i : Nat), i))).map Prod.fst, a < n + 1 := by
      intro a ha
      simp [List.map_map, Function.comp, List.mem_range'_1] at ha
      omega
    have hcacheIns : mapInsert (1 + n) ((0 : Nat), n + 1)
        ((List.range' 1 n).map (fun i => (i, 0, i))) =
        (List.range' 1 (n + 1)).map (fun i => (i, 0, i)) := by
      rw [mapInsert_append_of_lt _ hboundc, List.range'_1_concat, List.map_append]
      simp [Nat.add_comm]
    have hagesIns : mapInsert (n + 1) (1 + n)
        ((List.range' 1 n).map (fun i => (i, i))) =
        (List.range' 1 (n + 1)).map (fun i => (i, i)) := by
      rw [mapInsert_append_of_lt _ hbounda, List.range'_1_concat, List.map_append]
      simp [Nat.add_comm]
    have hlenc : ((List.range' 1 (n + 1)).map
        (fun i => ((i : Nat), (0 : Nat), i))).length = n + 1 := by simp
    have htrim := trimLoop_of_length_le
      ((List.range' 1 (n + 1)).map (fun i => (i, i)))
      (le_trans (le_of_eq hlenc) hj)
    simp [step, Cache.insert, hmod, hnlt, hfind, hcacheIns, hagesIns,
      trim_to_capacity, htrim]

/-- C6 as frozen is refuted at capacity `2 ^ 64 - 1`: inserting the
`2 ^ 64` distinct keys `1 … 2 ^ 64` (with value 0) into an empty cache
of that capacity satisfies every hypothesis of the claim, yet the final
insert wraps the age counter and purges the whole cache, so key 2 — one
of the claimed survivors `k₂ … k_{c+1}` — is not live at the end. -/
theorem lru_eviction_order_cex :
    1 ≤ ageModulus - 1 ∧
    ((List.range' 1 ageModulus).map (fun i => ((i : Nat), (0 : Nat)))).length
      = (ageModulus - 1) + 1 ∧
    (((List.range' 1 ageModulus).map
        (fun i => ((i : Nat), (0 : Nat)))).map Prod.fst).Nodup ∧
    ¬ (∀ key, (mapFind key (run (initCache (ageModulus - 1))
          (insertOps ((List.range' 1 ageModulus).map
            (fun i => (i, 0))))).cache).isSome = true
        ↔ key ∈ (((List.range' 1 ageModulus).map
            (fun i => ((i : Nat), (0 : Nat)))).map Prod.fst).drop 1) := by
  have hWval : ageModulus = (ageModulus - 1) + 1 := by norm_num [ageModulus]
  have hfinal : run (initCache (ageModulus - 1))
      (insertOps ((List.range' 1 ageModulus).map (fun i => (i, 0)))) =
      { cache := [(ageModulus, 0, 0)], ages := [(0, ageModulus)],
        last_age := 0, capacity := ageModulus - 1, hits := 0, misses := 0 } := by
    have hsplit : insertOps ((List.range' 1 ageModulus).map
        (fun i => ((i : Nat), (0 : Nat)))) =
        insertOps ((List.range' 1 (ageModulus - 1)).map (fun i => (i, 0))) ++
          [Op.insert (1 + (ageModulus - 1)) 0] := by
      conv_lhs => rw [hWval]
      rw [List.range'_1_concat, List.map_append]
      simp [insertOps]
    rw [hsplit, run_concat, run_ascending_inserts (ageModulus - 1) le_rfl]
    have h0 : (ageModulus - 1 + 1) % ageModulus = 0 := by norm_num [ageModulus]
    have h1 : 0 < ageModulus - 1 := by norm_num [ageModulus]
    have h2 : ¬ (ageModulus - 1 < 1) := by norm_num [ageModulus]
    have h3 : 1 + (ageModulus - 1) = ageModulus := by norm_num [ageModulus]
    simp [step, Cache.insert, h0, h1, h2, h3, mapFind, mapInsert,
      trim_to_capacity, trimLoop]
  refine ⟨by norm_num [ageModulus],
    by rw [List.length_map, List.length_range']; exact hWval, ?_, ?_⟩
  · simp only [List.map_map]
    have : (Prod.fst ∘ fun i => ((i : Nat), (0 : Nat))) = id := rfl
    rw [this, List.map_id]
    exact List.nodup_range' 1 ageModulus
  · intro h
    have h2mem : (2 : Nat) ∈ (((List.range' 1 ageModulus).map
        (fun i => ((i : Nat), (0 : Nat)))).map Prod.fst).drop 1 := by
      simp only [List.map_map]
      have hid : (Prod.fst ∘ fun i => ((i : Nat), (0 : Nat))) = id := rfl
      rw [hid, List.map_id]
      rw [hWval, List.range'_succ]
      simp only [List.drop_succ_cons, List.drop_zero]
      rw [List.mem_range'_1]
      constructor
      · omega
      · have : 1 < ageModulus - 1 := by norm_num [ageModulus]
        omega
    have hsome := (h 2).2 h2mem
    rw [hfinal] at hsome
    have hnone : mapFind 2 [(ageModulus, (0 : Nat), 0)] = none := by
      rw [mapFind, if_neg (by norm_num [ageModulus]), mapFind]
    rw [hnone] at hsome
    simp at hsome

end LRUCache
